import Mathlib

/-!
Verification of the sentiment-analysis engine and its text-normalization
utilities.  The definitions below are a shallow embedding, at the level of
`List Char`, of `Sentiment_analysis_logic/sentiment_engine.py` and
`Sentiment_analysis_logic/utils.py`.  Strings are treated as sequences of
characters; the ASCII fragments of Python's `\s`, `\w`, `\d` character
classes and of `str.lower` are used.  Decimal sentiment scores are
represented exactly in hundredths as integers (`80` stands for `0.80`).
-/

/-- ASCII whitespace, the ASCII fragment of Python's `\s` class and of
`str.strip`: space, tab, newline, carriage return, vertical tab, form feed. -/
def isWs (c : Char) : Bool :=
  c == ' ' || c == '\t' || c == '\n' || c == '\r' || c == '\x0b' || c == '\x0c'

/-- ASCII word character, the ASCII fragment of Python's `\w` class
(used for the `\b` word-boundary assertion). -/
def isWord (c : Char) : Bool :=
  c.isAlphanum || c == '_'

/-- Lowercased character data of a string: models `text.lower()`
(line 9 of `sentiment_engine.py`) on the ASCII fragment. -/
def lcData (s : String) : List Char := s.data.map Char.toLower

/-- Python `str.strip()`: drop ASCII whitespace from both ends. -/
def trimL (l : List Char) : List Char :=
  ((l.dropWhile isWs).reverse.dropWhile isWs).reverse

/-- Case-insensitive match of the (lowercase) word `w` at the head of `l`:
the head of `l`, lowercased, starts with `w`. -/
def ciAt : List Char → List Char → Bool
  | [], _ => true
  | _ :: _, [] => false
  | a :: w, c :: l => (c.toLower == a) && ciAt w l

/-! ## The thread-marker split of the engine

`re.split(r"thread\d+\s*-\s*", t)` on the lowercased text
(`sentiment_engine.py`, line 12).  `threadMarkAt l` returns the remainder of
`l` after a marker match at its head: the literal `thread`, one or more
digits (greedy), optional whitespace, `-`, optional whitespace. -/

/-- Remainder of `l` after a match of `thread\d+\s*-\s*` starting at its
head, or `none` when the pattern does not match there. -/
def threadMarkAt (l : List Char) : Option (List Char) :=
  if ("thread".data).isPrefixOf l then
    let r := l.drop 6
    let ds := r.takeWhile Char.isDigit
    if ds.isEmpty then none
    else
      match ((r.drop ds.length).dropWhile isWs) with
      | '-' :: r3 => some (r3.dropWhile isWs)
      | _ => none
  else none

/-- Fuelled splitting scanner: accumulate the current segment (reversed) in
`acc`; at every position try the thread marker; on a match flush the segment
and restart after the marker.  Since every step consumes at least one input
character, fuel `l.length` always suffices and the fuel-exhausted branch is
unreachable. -/
def splitGoF : Nat → List Char → List Char → List (List Char)
  | _, acc, [] => [acc.reverse]
  | 0, acc, l => [acc.reverse ++ l]
  | fuel + 1, acc, c :: t =>
    match threadMarkAt (c :: t) with
    | some rest => acc.reverse :: splitGoF fuel [] rest
    | none => splitGoF fuel (c :: acc) t

/-- `re.split(r"thread\d+\s*-\s*", t)`: the list of segments of `t` between
thread markers. -/
def threadSplit (t : List Char) : List (List Char) :=
  splitGoF t.length [] t

/-- `[th.strip() for th in threads if th.strip()]`
(`sentiment_engine.py`, line 13). -/
def segmentsL (t : List Char) : List (List Char) :=
  ((threadSplit t).map trimL).filter (fun x => !x.isEmpty)

/-- `threads[-1] if threads else t` (`sentiment_engine.py`, line 14): the
last non-empty trimmed segment, falling back to the whole lowercased text. -/
def lastThreadL (t : List Char) : List Char :=
  ((segmentsL t).getLast?).getD t

/-- Whether the thread-marker pattern matches anywhere in `l`. -/
def hasMarkL : List Char → Bool
  | [] => false
  | c :: t => (threadMarkAt (c :: t)).isSome || hasMarkL t

/-! ## The rule engine -/

/-- The fixed five-field outcome record returned by `analyze_sentiment`.
`sentiment_score` is the decimal score in hundredths (`80` = `0.80`). -/
structure Outcome where
  sentiment_score : Int
  sentiment_label : String
  emotion : String
  complaint_risk_level : String
  ticket_category : String
deriving DecidableEq, Repr

def appreciationO : Outcome := ⟨80, "Positive", "Joy", "Low", "Appreciation"⟩
def resolvedO : Outcome := ⟨50, "Positive", "Satisfied", "Low", "Resolved"⟩
def wrongReportO : Outcome := ⟨-75, "Negative", "Angry", "High", "Wrong Report"⟩
def refundO : Outcome := ⟨-75, "Negative", "Disappointed", "High", "Refund / Cancellation"⟩
def unresolvedO : Outcome := ⟨-65, "Negative", "Angry", "High", "Unresolved Issue"⟩
def delayO : Outcome := ⟨-45, "Negative", "Frustrated", "Medium", "Service Delay / Not Delivered"⟩
def correctionO : Outcome := ⟨-25, "Neutral", "Concerned", "Low", "Correction Request"⟩
def languageO : Outcome := ⟨-20, "Neutral", "Concerned", "Low", "Language Issue"⟩
def fraudO : Outcome := ⟨-85, "Negative", "Angry", "Critical", "Fraud Accusation"⟩
def generalO : Outcome := ⟨0, "Neutral", "Neutral", "Low", "General Query"⟩

/-- The ten fixed records of the rule table, in priority order. -/
def ruleTable : List Outcome :=
  [appreciationO, resolvedO, wrongReportO, refundO, unresolvedO,
   delayO, correctionO, languageO, fraudO, generalO]

/-- Python's `w in l` on strings: `w` occurs as a contiguous substring of `l`. -/
def kwIn (w : List Char) : List Char → Bool
  | [] => w.isEmpty
  | c :: t => w.isPrefixOf (c :: t) || kwIn w t

/-- `any(w in block for w in words)`: some keyword of `ws` occurs as a
substring of `l`. -/
def hasKwL (ws : List (List Char)) (l : List Char) : Bool :=
  ws.any (fun w => kwIn w l)

def strong_positive : List (List Char) :=
  ["wow! you just made our day".data, "made our day".data,
   "excellent".data, "thank you so much".data, "thanks a lot".data,
   "really appreciate".data, "great service".data, "amazing".data,
   "very happy".data]

def resolution_words : List (List Char) :=
  ["issue resolved".data, "problem resolved".data, "got it now".data,
   "i have received it".data, "now received".data, "received it now".data]

def wrong_report_words : List (List Char) :=
  ["someone else".data, "belongs to someone".data, "different person".data,
   "not my kundali".data, "wrong kundali".data, "incorrect kundali".data,
   "wrong chart".data, "this is not mine".data, "sent the wrong report".data,
   "yadav".data]

def refund_words : List (List Char) :=
  ["refund".data, "money back".data, "cancel".data, "cancel my order".data,
   "want refund".data, "waste of money".data, "not satisfied".data,
   "not happy".data, "bad service".data]

def unresolved_words : List (List Char) :=
  ["issue not resolved".data, "not resolved yet".data, "still not resolved".data,
   "cannot close the ticket".data, "ticket closed".data, "reopen the ticket".data,
   "not solved".data]

def delay_words : List (List Char) :=
  ["not received".data, "didnt receive".data, "didn\x27t receive".data,
   "didnt get".data, "didn\x27t get".data, "not got".data, "no report".data,
   "not attached".data, "no report attached".data, "report missing".data,
   "didnt recive".data, "recieve".data, "recive".data, "nahi mila".data,
   "kab milega".data, "waiting for report".data, "still waiting".data,
   "report not come".data, "report not came".data, "not delivered".data,
   "class recording not received".data, "class link not received".data,
   "didn\x27t get class".data, "missed class".data]

def correction_words : List (List Char) :=
  ["wrong".data, "incorrect".data, "galat".data, "mistake".data, "dob".data,
   "birth time".data, "time of birth".data, "please correct".data,
   "update the time".data, "change my details".data]

def language_words : List (List Char) :=
  ["hindi me".data, "hindi mein".data, "send in hindi".data,
   "english nahi chahiye".data, "hindi chahiye".data, "want in hindi".data,
   "report in hindi".data]

def fraud_words : List (List Char) :=
  ["cheating".data, "fraud".data, "scam".data, "fake".data, "cheater".data,
   "are you guys cheating".data, "you are cheating".data]

/-- `analyze_sentiment` (`sentiment_engine.py`, lines 3-163): the strict
priority if-chain over the keyword tables.  The two final-thread rules test
the last segment; the remaining rules test the whole lowercased text.
The Python coercion of non-string inputs (`text = str(text)`) is reflected
by this being a total function on strings. -/
def analyze_sentiment (text : String) : Outcome :=
  let t := lcData text
  if hasKwL strong_positive (lastThreadL t) then appreciationO
  else if hasKwL resolution_words (lastThreadL t) then resolvedO
  else if hasKwL wrong_report_words t then wrongReportO
  else if hasKwL refund_words t then refundO
  else if hasKwL unresolved_words t then unresolvedO
  else if hasKwL delay_words t then delayO
  else if hasKwL correction_words t then correctionO
  else if hasKwL language_words t then languageO
  else if hasKwL fraud_words t then fraudO
  else generalO

/-- All nine rule guards fail: no keyword set matches. -/
def noRuleMatch (text : String) : Bool :=
  let t := lcData text
  !hasKwL strong_positive (lastThreadL t) && !hasKwL resolution_words (lastThreadL t) &&
  !hasKwL wrong_report_words t && !hasKwL refund_words t &&
  !hasKwL unresolved_words t && !hasKwL delay_words t &&
  !hasKwL correction_words t && !hasKwL language_words t && !hasKwL fraud_words t

/-- `build_thread_text` (`utils.py`, lines 50-56): join the turns with
`Thread<k>- ` prefixes (1-based `k`) and blank-line separators. -/
def build_thread_text (threads : List String) : String :=
  if threads.isEmpty then ""
  else String.intercalate "\n\n"
    (threads.enum.map (fun p => "Thread" ++ toString (p.1 + 1) ++ "- " ++ p.2))

/-! ## The normalization pipeline of `extract_fresh_message` (`utils.py`, lines 4-40)

Each `re.split(p, text, ...)[0]` stage keeps the text before the first match
of `p`; each `re.sub` stage replaces every match.  Patterns are modelled as
predicates `Bool → List Char → Bool` on suffixes of the text, the `Bool`
telling whether the suffix is preceded by the start of the string or by a
non-word character (the information the `\b` assertion needs). -/

/-- Python's `html.unescape`, restricted to the five predefined XML
entities (the inputs exercised here contain no entity references). -/
def htmlUnescape : List Char → List Char
  | [] => []
  | '&' :: 'a' :: 'm' :: 'p' :: ';' :: t => '&' :: htmlUnescape t
  | '&' :: 'l' :: 't' :: ';' :: t => '<' :: htmlUnescape t
  | '&' :: 'g' :: 't' :: ';' :: t => '>' :: htmlUnescape t
  | '&' :: 'q' :: 'u' :: 'o' :: 't' :: ';' :: t => '"' :: htmlUnescape t
  | '&' :: 'a' :: 'p' :: 'o' :: 's' :: ';' :: t => '\x27' :: htmlUnescape t
  | c :: t => c :: htmlUnescape t

/-- Remainder of `l` after its first `>`, or `none`. -/
def dropToGt : List Char → Option (List Char)
  | [] => none
  | c :: t => if c == '>' then some t else dropToGt t

/-- Remainder of `l` after the first case-insensitive occurrence of `w`
(`w` given lowercase and non-empty), or `none`. -/
def dropToCi (w : List Char) : List Char → Option (List Char)
  | [] => none
  | c :: t => if ciAt w (c :: t) then some ((c :: t).drop w.length) else dropToCi w t

/-- A match of `(?is)<style.*?>.*?</style>` starting at the head of `l`:
the literal `<style`, lazily up to the first `>`, lazily up to and including
the first `</style>`.  Returns the remainder after the match. -/
def matchStyleAt (l : List Char) : Option (List Char) :=
  if ciAt "<style".data l then (dropToGt (l.drop 6)).bind (dropToCi "</style>".data)
  else none

/-- A match of `(?is)<script.*?>.*?</script>` starting at the head of `l`. -/
def matchScriptAt (l : List Char) : Option (List Char) :=
  if ciAt "<script".data l then (dropToGt (l.drop 7)).bind (dropToCi "</script>".data)
  else none

/-- Fuelled `re.sub(pattern, " ", ·)` scanner for a matcher that returns the
remainder after a match: every match, scanning left to right, is replaced by
one space.  A match always consumes at least one character, so fuel
`l.length` suffices and the fuel-exhausted branch is unreachable. -/
def subAllF (mat : List Char → Option (List Char)) : Nat → List Char → List Char
  | _, [] => []
  | 0, l => l
  | f + 1, c :: t =>
    match mat (c :: t) with
    | some rest => ' ' :: subAllF mat f rest
    | none => c :: subAllF mat f t

/-- `re.sub(r"(?is)<style.*?>.*?</style>", " ", ·)` (`utils.py`, line 10). -/
def subStyle (l : List Char) : List Char := subAllF matchStyleAt l.length l

/-- `re.sub(r"(?is)<script.*?>.*?</script>", " ", ·)` (`utils.py`, line 11). -/
def subScript (l : List Char) : List Char := subAllF matchScriptAt l.length l

/-- Left-to-right automaton for `re.sub(r"<[^>]+>", " ", ·)` (`utils.py`,
line 12).  The second argument buffers a pending `<...` candidate tag
(reversed, without the opening `<`); a `>` closing a non-empty buffer flushes
the whole candidate as one space, a `>` right after `<` is no match, and an
unclosed candidate at the end of input is emitted verbatim.  This is exactly
the leftmost match of `<[^>]+>`: a match starting at a `<` runs to the first
following `>`, provided at least one character lies between. -/
def stripGo : List Char → Option (List Char) → List Char
  | [], none => []
  | [], some buf => '<' :: buf.reverse
  | c :: t, none => if c == '<' then stripGo t (some []) else c :: stripGo t none
  | c :: t, some buf =>
    if c == '>' then
      if buf.isEmpty then '<' :: '>' :: stripGo t none
      else ' ' :: stripGo t none
    else stripGo t (some (c :: buf))

/-- `re.sub(r"<[^>]+>", " ", ·)`: strip HTML tags. -/
def stripTags (l : List Char) : List Char := stripGo l none

/-- Head of the list satisfies `p`. -/
def headIs (p : Char → Bool) : List Char → Bool
  | [] => false
  | c :: _ => p c

/-- Some suffix of `l` satisfies `Q`. -/
def exAt (Q : List Char → Bool) : List Char → Bool
  | [] => Q []
  | c :: t => Q (c :: t) || exAt Q t

/-- A match of `wrote\s*:` at the head of `l`. -/
def wroteColonQ (l : List Char) : Bool :=
  ciAt "wrote".data l && headIs (· == ':') ((l.drop 5).dropWhile isWs)

/-- `\bOn\s+.*?wrote\s*:` (with `re.IGNORECASE | re.DOTALL`) at the head:
word boundary, `on`, at least one whitespace, then `wrote\s*:` anywhere
further right. -/
def onWroteAt (b : Bool) (l : List Char) : Bool :=
  b && ciAt "on".data l && headIs isWs (l.drop 2) && exAt wroteColonQ (l.drop 3)

/-- `\bFrom:\s+.*` at the head. -/
def fromAt (b : Bool) (l : List Char) : Bool :=
  b && ciAt "from:".data l && headIs isWs (l.drop 5)

/-- `\bSent:\s+.*` at the head. -/
def sentAt (b : Bool) (l : List Char) : Bool :=
  b && ciAt "sent:".data l && headIs isWs (l.drop 5)

/-- `\bTo:\s+.*` at the head. -/
def toAt (b : Bool) (l : List Char) : Bool :=
  b && ciAt "to:".data l && headIs isWs (l.drop 3)

/-- `\bSubject:\s+.*` at the head. -/
def subjAt (b : Bool) (l : List Char) : Bool :=
  b && ciAt "subject:".data l && headIs isWs (l.drop 8)

/-- The literal `-----Original Message-----` (case-insensitive) at the head. -/
def origAt (_ : Bool) (l : List Char) : Bool :=
  ciAt "-----original message-----".data l

/-- The literal `---- Forwarded message ----` (case-insensitive) at the head. -/
def fwdAt (_ : Bool) (l : List Char) : Bool :=
  ciAt "---- forwarded message ----".data l

/-- `>\s*wrote:` at the head. -/
def gtWroteAt (_ : Bool) (l : List Char) : Bool :=
  headIs (· == '>') l && ciAt "wrote:".data ((l.drop 1).dropWhile isWs)

/-- `(?i)thanks.*` at the head (the `.*` is irrelevant to where a match starts). -/
def thanksAt (_ : Bool) (l : List Char) : Bool := ciAt "thanks".data l

/-- `(?i)warm\s+regards.*` at the head. -/
def warmRegAt (_ : Bool) (l : List Char) : Bool :=
  ciAt "warm".data l && headIs isWs (l.drop 4) &&
  ciAt "regards".data ((l.drop 4).dropWhile isWs)

/-- `(?i)regards.*` at the head. -/
def regardsAt (_ : Bool) (l : List Char) : Bool := ciAt "regards".data l

/-- `(?i)team\s+astro.*` at the head. -/
def teamAstroAt (_ : Bool) (l : List Char) : Bool :=
  ciAt "team".data l && headIs isWs (l.drop 4) &&
  ciAt "astro".data ((l.drop 4).dropWhile isWs)

/-- `(?i)astro\s+arun\s+pandit.*` at the head. -/
def astroArunAt (_ : Bool) (l : List Char) : Bool :=
  ciAt "astro".data l && headIs isWs (l.drop 5) &&
  ciAt "arun".data ((l.drop 5).dropWhile isWs) &&
  headIs isWs (((l.drop 5).dropWhile isWs).drop 4) &&
  ciAt "pandit".data ((((l.drop 5).dropWhile isWs).drop 4).dropWhile isWs)

/-- `(?i)customer\s+support.*` at the head. -/
def custSupAt (_ : Bool) (l : List Char) : Bool :=
  ciAt "customer".data l && headIs isWs (l.drop 8) &&
  ciAt "support".data ((l.drop 8).dropWhile isWs)

/-- `re.split(p, text, ...)[0]`: the text before the first match of the
pattern, scanning every suffix with the boundary flag threaded along
(initially true: start of string). -/
def cutP (P : Bool → List Char → Bool) : Bool → List Char → List Char
  | _, [] => []
  | b, c :: t => if P b (c :: t) then [] else c :: cutP P (!isWord c) t

/-- Whether the pattern matches at some suffix of the text (boundary flag
threaded as in `cutP`). -/
def hasP (P : Bool → List Char → Bool) : Bool → List Char → Bool
  | b, [] => P b []
  | b, c :: t => P b (c :: t) || hasP P (!isWord c) t

/-- Apply a sequence of first-match cuts, each from the start of the
current text. -/
def applyCuts (ps : List (Bool → List Char → Bool)) (l : List Char) : List Char :=
  ps.foldl (fun acc P => cutP P true acc) l

/-- The reply-header patterns of `utils.py`, lines 14-23, in order. -/
def replyCuts : List (Bool → List Char → Bool) :=
  [onWroteAt, fromAt, sentAt, toAt, subjAt, origAt, fwdAt, gtWroteAt]

/-- The footer patterns of `utils.py`, lines 28-35, in order. -/
def footerCuts : List (Bool → List Char → Bool) :=
  [thanksAt, warmRegAt, regardsAt, teamAstroAt, astroArunAt, custSupAt]

/-- `re.sub(r"\s+", " ", ·)`: collapse every whitespace run into a single
space (two-character lookahead keeps the recursion structural). -/
def subWs : List Char → List Char
  | [] => []
  | [c] => if isWs c then [' '] else [c]
  | c :: d :: t =>
    if isWs c && isWs d then subWs (d :: t)
    else (if isWs c then ' ' else c) :: subWs (d :: t)

/-- The text entering the reply-header stage: entity decoding, style and
script removal, tag stripping (`utils.py`, lines 9-12). -/
def tagStageL (l : List Char) : List Char :=
  stripTags (subScript (subStyle (htmlUnescape l)))

/-- The text after the reply-header cuts (`utils.py`, lines 25-26). -/
def replyStageL (l : List Char) : List Char :=
  applyCuts replyCuts (tagStageL l)

/-- The text after the footer cuts (`utils.py`, lines 37-38). -/
def footStageL (l : List Char) : List Char :=
  applyCuts footerCuts (replyStageL l)

/-- The full character-level pipeline of `extract_fresh_message`, ending
with `re.sub(r"\s+", " ", text).strip()` (`utils.py`, line 40). -/
def efmL (l : List Char) : List Char := trimL (subWs (footStageL l))

/-- `extract_fresh_message` (`utils.py`, lines 4-40). -/
def extract_fresh_message (s : String) : String :=
  if s = "" then "" else ⟨efmL s.data⟩

/-- A match of the tag pattern `<[^>]+>` at the head of `l`: a `<`, then at
least one character, then a `>`; such a match exists exactly when the
character after the `<` exists and is not `>` and some `>` occurs at or
after it. -/
def tagAt (_ : Bool) (l : List Char) : Bool :=
  headIs (· == '<') l && headIs (fun c => !(c == '>')) (l.drop 1) &&
  (l.drop 1).contains '>'

/-- `l'` is `l` with every maximal whitespace run replaced by one space:
the simulation relation between a text and its `re.sub(r"\s+", " ", ·)`
image, also applicable starting at any aligned suffix pair. -/
inductive Collapsed : List Char → List Char → Prop
  | nil : Collapsed [] []
  | chr {c : Char} {t t' : List Char} : isWs c = false → Collapsed t t' →
      Collapsed (c :: t) (c :: t')
  | run {c : Char} {t t' : List Char} : isWs c = true →
      Collapsed (t.dropWhile isWs) t' → Collapsed (c :: t) (' ' :: t')

/-! ## Lemmas and claim theorems -/

/-- When the thread-marker pattern matches nowhere, the split returns the
whole text as its sole segment (for any fuel and accumulator). -/
lemma splitGoF_of_no_mark (l : List Char) :
    ∀ fuel acc, hasMarkL l = false → splitGoF fuel acc l = [acc.reverse ++ l] := by
  induction l with
  | nil =>
    intro fuel acc _
    cases fuel <;> simp [splitGoF]
  | cons c t ih =>
    intro fuel acc h
    simp only [hasMarkL, Bool.or_eq_false_iff] at h
    obtain ⟨h1, h2⟩ := h
    cases fuel with
    | zero => rfl
    | succ fuel =>
      cases hm : threadMarkAt (c :: t) with
      | some r => rw [hm] at h1; simp at h1
      | none =>
        simp only [splitGoF, hm]
        rw [ih fuel (c :: acc) h2]
        simp

/-- Claim C3: the conversation whose final thread reports resolution is
classified as the Resolved outcome even though the full text contains a
delay keyword: the final-thread resolution rule has higher priority. -/
theorem final_resolution_example :
    analyze_sentiment "Thread1- I never received my report\n\nThread2- issue resolved, got it now"
      = resolvedO := by decide

/-- Claim C1 (counterexample): a text containing both a refund keyword
(`refund`) and a delay keyword (`not received`) for which `classify` does
not return the Refund / Cancellation outcome — the final-thread gratitude
rule fires first and returns Appreciation. -/
theorem refund_delay_counterexample :
    hasKwL refund_words (lcData "thank you so much, refund not received") = true ∧
    hasKwL delay_words (lcData "thank you so much, refund not received") = true ∧
    analyze_sentiment "thank you so much, refund not received" = appreciationO ∧
    analyze_sentiment "thank you so much, refund not received" ≠ refundO :=
  ⟨by decide, by decide, by decide, by decide⟩

/-- Claim C1 (amended): a text containing a refund keyword is never
classified as the Service Delay outcome (the refund rule precedes the delay
rule); and when no higher-priority rule (final-thread positive, final-thread
resolution, wrong report) matches, the Refund / Cancellation outcome is
returned. -/
theorem refund_priority_amended :
    (∀ t : String, hasKwL refund_words (lcData t) = true →
      analyze_sentiment t ≠ delayO) ∧
    (∀ t : String, hasKwL refund_words (lcData t) = true →
      hasKwL strong_positive (lastThreadL (lcData t)) = false →
      hasKwL resolution_words (lastThreadL (lcData t)) = false →
      hasKwL wrong_report_words (lcData t) = false →
      analyze_sentiment t = refundO) := by
  constructor
  · intro t h
    simp only [analyze_sentiment]
    split_ifs <;> decide
  · intro t h hs hr hw
    simp [analyze_sentiment, h, hs, hr, hw]

/-- Claim C1 witness: a concrete text with both keyword kinds and no
higher-priority match is classified Refund / Cancellation, not Service
Delay. -/
theorem refund_priority_witness :
    analyze_sentiment "please refund, report not received" ≠ delayO ∧
    analyze_sentiment "please refund, report not received" = refundO :=
  ⟨refund_priority_amended.1 "please refund, report not received" (by decide),
   refund_priority_amended.2 "please refund, report not received"
     (by decide) (by decide) (by decide) (by decide)⟩

/-- Claim C2: a gratitude keyword absent from the final thread never
triggers the Appreciation rule, and the concrete two-thread conversation
with gratitude only in the first thread is classified as Service Delay. -/
theorem gratitude_scope :
    (∀ t : String, hasKwL strong_positive (lastThreadL (lcData t)) = false →
      (analyze_sentiment t).ticket_category ≠ "Appreciation") ∧
    analyze_sentiment "Thread1- thank you so much\n\nThread2- still waiting for my report"
      = delayO := by
  constructor
  · intro t h
    simp only [analyze_sentiment]
    split_ifs with h1 <;> first | decide | simp [h] at h1
  · decide

/-- Claim C2 witness: a concrete text with no gratitude keyword in its
final (sole) thread is not classified Appreciation. -/
theorem gratitude_scope_witness :
    (analyze_sentiment "hello").ticket_category ≠ "Appreciation" :=
  gratitude_scope.1 "hello" (by decide)

/-- Claim C4 (counterexample): for the input `"Thread1- "` the segment
sequence is empty, and the engine's last-turn value is the whole lowercased
text `"thread1- "`, not the empty string the claim asserts. -/
theorem lastturn_counterexample :
    segmentsL (lcData "Thread1- ") = [] ∧
    lastThreadL (lcData "Thread1- ") = "thread1- ".data ∧
    lastThreadL (lcData "Thread1- ") ≠ "".data :=
  ⟨by decide, by decide, by decide⟩

/-- Claim C4 (amended): when segmentation yields an empty sequence the
last-turn value falls back to the whole lowercased text (as on
`"Thread1- "`), and for an input with no thread-marker match and non-blank
content the whole trimmed text is the sole segment and hence the last turn. -/
theorem lastturn_fallback_amended :
    (segmentsL (lcData "Thread1- ") = [] ∧
      lastThreadL (lcData "Thread1- ") = "thread1- ".data) ∧
    (∀ s : String, segmentsL (lcData s) = [] → lastThreadL (lcData s) = lcData s) ∧
    (∀ s : String, hasMarkL (lcData s) = false → trimL (lcData s) ≠ [] →
      segmentsL (lcData s) = [trimL (lcData s)] ∧
      lastThreadL (lcData s) = trimL (lcData s)) := by
  refine ⟨⟨by decide, by decide⟩, ?_, ?_⟩
  · intro s h
    simp [lastThreadL, h]
  · intro s h hne
    have hsplit : threadSplit (lcData s) = [lcData s] := by
      simpa [threadSplit] using splitGoF_of_no_mark (lcData s) (lcData s).length [] h
    cases htr : trimL (lcData s) with
    | nil => exact absurd htr hne
    | cons c cs =>
      constructor
      · simp [segmentsL, hsplit, htr]
      · simp [lastThreadL, segmentsL, hsplit, htr]

/-- Claim C4 witness: the fallback and the sole-segment behavior at
concrete inputs. -/
theorem lastturn_fallback_witness :
    lastThreadL (lcData "Thread1- ") = lcData "Thread1- " ∧
    segmentsL (lcData "hi there") = [trimL (lcData "hi there")] :=
  ⟨lastturn_fallback_amended.2.1 "Thread1- " (by decide),
   (lastturn_fallback_amended.2.2 "hi there" (by decide) (by decide)).1⟩

/-- Claim C5: segmenting the text built from `["a", "b", "c"]` recovers
exactly those three turns, and building from the empty sequence yields the
empty string. -/
theorem roundtrip_segmentation :
    build_thread_text ["a", "b", "c"] = "Thread1- a\n\nThread2- b\n\nThread3- c" ∧
    segmentsL (lcData (build_thread_text ["a", "b", "c"]))
      = ["a".data, "b".data, "c".data] ∧
    build_thread_text [] = "" :=
  ⟨by decide, by decide, by decide⟩

/-- Claim C8: `analyze_sentiment` is a total function on strings (so a
batch run can never be interrupted), and when no rule's keyword set matches
— in particular on the empty string and on
`"just checking on my order status"` — it returns the General Query
default record. -/
theorem default_fallback :
    analyze_sentiment "" = generalO ∧
    analyze_sentiment "just checking on my order status" = generalO ∧
    (∀ t : String, noRuleMatch t = true → analyze_sentiment t = generalO) := by
  refine ⟨by decide, by decide, ?_⟩
  intro t h
  simp only [noRuleMatch, Bool.and_eq_true, Bool.not_eq_true'] at h
  obtain ⟨⟨⟨⟨⟨⟨⟨⟨h1, h2⟩, h3⟩, h4⟩, h5⟩, h6⟩, h7⟩, h8⟩, h9⟩ := h
  simp [analyze_sentiment, h1, h2, h3, h4, h5, h6, h7, h8, h9]

/-- Claim C8 witness: the no-match condition holds at the concrete default
example and the theorem yields the default record there. -/
theorem default_fallback_witness :
    analyze_sentiment "just checking on my order status" = generalO :=
  default_fallback.2.2 "just checking on my order status" (by decide)

/-- Claim C9: every classification is one of the ten fixed records of the
rule table; hence the score (in hundredths) lies in the fixed nine-value
set inside `[-1, 1]`, the label and risk level lie in their enumerations,
and the ticket category uniquely determines the whole record. -/
theorem fixed_vocabulary :
    (∀ t : String, analyze_sentiment t ∈ ruleTable) ∧
    (∀ t : String,
      (analyze_sentiment t).sentiment_score ∈ ([80, 50, -75, -65, -45, -25, -20, -85, 0] : List Int) ∧
      -100 ≤ (analyze_sentiment t).sentiment_score ∧
      (analyze_sentiment t).sentiment_score ≤ 100 ∧
      (analyze_sentiment t).sentiment_label ∈ ["Positive", "Neutral", "Negative"] ∧
      (analyze_sentiment t).complaint_risk_level ∈ ["Low", "Medium", "High", "Critical"]) ∧
    (∀ t u : String,
      (analyze_sentiment t).ticket_category = (analyze_sentiment u).ticket_category →
      analyze_sentiment t = analyze_sentiment u) := by
  have hmem : ∀ t : String, analyze_sentiment t ∈ ruleTable := by
    intro t
    simp only [analyze_sentiment]
    split_ifs <;> decide
  have hprops : ∀ o ∈ ruleTable,
      o.sentiment_score ∈ ([80, 50, -75, -65, -45, -25, -20, -85, 0] : List Int) ∧
      -100 ≤ o.sentiment_score ∧ o.sentiment_score ≤ 100 ∧
      o.sentiment_label ∈ ["Positive", "Neutral", "Negative"] ∧
      o.complaint_risk_level ∈ ["Low", "Medium", "High", "Critical"] := by decide
  have huniq : ∀ o ∈ ruleTable, ∀ o2 ∈ ruleTable,
      o.ticket_category = o2.ticket_category → o = o2 := by decide
  exact ⟨hmem, fun t => hprops _ (hmem t),
    fun t u h => huniq _ (hmem t) _ (hmem u) h⟩

/-- Claim C9 witness: two texts matching the same rule category produce the
identical record. -/
theorem fixed_vocabulary_witness :
    analyze_sentiment "cancel please" = analyze_sentiment "refund" :=
  fixed_vocabulary.2.2 "cancel please" "refund" (by decide)

/-! ### Basic facts about the character classes and matching combinators -/

lemma ws_chars {c : Char} (h : isWs c = true) :
    c = ' ' ∨ c = '\t' ∨ c = '\n' ∨ c = '\r' ∨ c = '\x0b' ∨ c = '\x0c' := by
  simp only [isWs, Bool.or_eq_true, beq_iff_eq] at h
  tauto

lemma not_word_of_ws {c : Char} (h : isWs c = true) : isWord c = false := by
  rcases ws_chars h with h | h | h | h | h | h <;> subst h <;> decide

lemma toLower_of_ws {c : Char} (h : isWs c = true) : c.toLower = c := by
  rcases ws_chars h with h | h | h | h | h | h <;> subst h <;> decide

lemma beq_false_of_ws {c a : Char} (hc : isWs c = true) (ha : isWs a = false) :
    (c == a) = false := by
  rcases eq_or_ne c a with h | h
  · subst h; rw [hc] at ha; exact absurd ha (by simp)
  · exact beq_eq_false_iff_ne.mpr h

lemma ciAt_false_of_ws {a c : Char} {w l : List Char}
    (hc : isWs c = true) (ha : isWs a = false) : ciAt (a :: w) (c :: l) = false := by
  simp only [ciAt, toLower_of_ws hc, beq_false_of_ws hc ha, Bool.false_and]

lemma dropWhile_suffix (p : Char → Bool) : ∀ l : List Char, ∃ u, u ++ l.dropWhile p = l := by
  intro l
  induction l with
  | nil => exact ⟨[], rfl⟩
  | cons c t ih =>
    by_cases h : p c = true
    · obtain ⟨u, hu⟩ := ih
      exact ⟨c :: u, by simp [List.dropWhile, h, hu]⟩
    · exact ⟨[], by simp [List.dropWhile, h]⟩

lemma dropWhile_head_false {p : Char → Bool} :
    ∀ {l c u}, List.dropWhile p l = c :: u → p c = false := by
  intro l
  induction l with
  | nil => intro c u h; simp [List.dropWhile] at h
  | cons d t ih =>
    intro c u h
    by_cases hd : p d = true
    · rw [List.dropWhile_cons, if_pos hd] at h
      exact ih h
    · rw [List.dropWhile_cons, if_neg hd] at h
      cases h
      simpa using hd

lemma dropWhile_append_of_ne_nil {p : Char → Bool} :
    ∀ {l : List Char}, l.dropWhile p ≠ [] →
      ∀ r, (l ++ r).dropWhile p = l.dropWhile p ++ r := by
  intro l
  induction l with
  | nil => intro h; exact absurd rfl h
  | cons c t ih =>
    intro h r
    by_cases hc : p c = true
    · rw [List.dropWhile_cons, if_pos hc] at h
      simp only [List.cons_append, List.dropWhile_cons, if_pos hc]
      exact ih h r
    · simp [List.dropWhile_cons, if_neg hc]

lemma drop_append_of_ne_nil {l r : List Char} {n : Nat} (h : l.drop n ≠ []) :
    (l ++ r).drop n = l.drop n ++ r := by
  have hn : n < l.length := List.length_lt_of_drop_ne_nil h
  rw [List.drop_append_eq_append_drop, Nat.sub_eq_zero_of_le (Nat.le_of_lt hn), List.drop_zero]

lemma ciAt_append {w : List Char} :
    ∀ {l r : List Char}, ciAt w l = true → ciAt w (l ++ r) = true := by
  induction w with
  | nil => intro l r _; rfl
  | cons a w ih =>
    intro l r h
    cases l with
    | nil => simp [ciAt] at h
    | cons c t =>
      simp only [ciAt, Bool.and_eq_true] at h ⊢
      exact ⟨h.1, ih h.2⟩

lemma ciAt_cons_ne_nil {a : Char} {w l : List Char} (h : ciAt (a :: w) l = true) : l ≠ [] := by
  intro he
  subst he
  simp [ciAt] at h

lemma headIs_append {p : Char → Bool} {l r : List Char} (h : headIs p l = true) :
    headIs p (l ++ r) = true := by
  cases l with
  | nil => simp [headIs] at h
  | cons c t => exact h

lemma headIs_ne_nil {p : Char → Bool} {l : List Char} (h : headIs p l = true) : l ≠ [] := by
  intro he
  subst he
  simp [headIs] at h

lemma contains_mem {a : Char} {l : List Char} : l.contains a = true ↔ a ∈ l := by
  simp

lemma contains_head_or_tail {a c : Char} {t : List Char} (h : (c :: t).contains a = true) :
    a = c ∨ t.contains a = true := by
  rcases List.mem_cons.mp (contains_mem.mp h) with h1 | h1
  · exact Or.inl h1
  · exact Or.inr (contains_mem.mpr h1)

lemma contains_cons_of_tail {a c : Char} {t : List Char} (h : t.contains a = true) :
    (c :: t).contains a = true :=
  contains_mem.mpr (List.mem_cons_of_mem c (contains_mem.mp h))

lemma contains_append_left {a : Char} {l r : List Char} (h : l.contains a = true) :
    (l ++ r).contains a = true :=
  contains_mem.mpr (List.mem_append_left r (contains_mem.mp h))

lemma contains_of_dropWhile {p : Char → Bool} {a : Char} {l : List Char}
    (h : (l.dropWhile p).contains a = true) : l.contains a = true :=
  contains_mem.mpr ((List.dropWhile_sublist (l := l) p).mem (contains_mem.mp h))

/-! ### Generic lemmas about the first-match cut and match scanners -/

lemma hasP_of_head {P : Bool → List Char → Bool} {b : Bool} {l : List Char}
    (h : P b l = true) : hasP P b l = true := by
  cases l with
  | nil => simpa [hasP] using h
  | cons c t => simp [hasP, h]

lemma hasP_append {P : Bool → List Char → Bool}
    (hmono : ∀ b m r, P b m = true → P b (m ++ r) = true) :
    ∀ (l r : List Char) (b : Bool), hasP P b l = true → hasP P b (l ++ r) = true := by
  intro l
  induction l with
  | nil =>
    intro r b h
    simp only [hasP] at h
    exact hasP_of_head (hmono b [] r h)
  | cons c t ih =>
    intro r b h
    simp only [hasP, Bool.or_eq_true] at h ⊢
    rcases h with h | h
    · exact Or.inl (hmono b (c :: t) r h)
    · exact Or.inr (ih r (!isWord c) h)

lemma cutP_pre (P : Bool → List Char → Bool) :
    ∀ (l : List Char) (b : Bool), ∃ r, cutP P b l ++ r = l := by
  intro l
  induction l with
  | nil => intro b; exact ⟨[], rfl⟩
  | cons c t ih =>
    intro b
    by_cases h : P b (c :: t) = true
    · exact ⟨c :: t, by simp [cutP, h]⟩
    · obtain ⟨r, hr⟩ := ih (!isWord c)
      exact ⟨r, by simp [cutP, h, hr]⟩

lemma hasP_cutP (P : Bool → List Char → Bool)
    (hmono : ∀ b m r, P b m = true → P b (m ++ r) = true)
    (hnil : ∀ b, P b [] = false) :
    ∀ (l : List Char) (b : Bool), hasP P b (cutP P b l) = false := by
  intro l
  induction l with
  | nil => intro b; simpa [cutP, hasP] using hnil b
  | cons c t ih =>
    intro b
    by_cases h : P b (c :: t) = true
    · simpa [cutP, h, hasP] using hnil b
    · simp only [cutP, h, if_false, if_neg h]
      simp only [hasP, Bool.or_eq_false_iff]
      constructor
      · obtain ⟨r, hr⟩ := cutP_pre P t (!isWord c)
        rcases hh : P b (c :: cutP P (!isWord c) t) with _ | _
        · rfl
        · exfalso
          have := hmono b (c :: cutP P (!isWord c) t) r hh
          rw [List.cons_append, hr] at this
          exact h this
      · exact ih (!isWord c)

lemma hasP_cut_other {P Q : Bool → List Char → Bool}
    (hmono : ∀ b m r, P b m = true → P b (m ++ r) = true)
    {l : List Char} {b : Bool} (h : hasP P b l = false) :
    hasP P b (cutP Q b l) = false := by
  rcases hh : hasP P b (cutP Q b l) with _ | _
  · rfl
  · exfalso
    obtain ⟨r, hr⟩ := cutP_pre Q l b
    have := hasP_append hmono (cutP Q b l) r b hh
    rw [hr] at this
    rw [this] at h
    exact Bool.noConfusion h

lemma applyCuts_cons (P : Bool → List Char → Bool)
    (ps : List (Bool → List Char → Bool)) (l : List Char) :
    applyCuts (P :: ps) l = applyCuts ps (cutP P true l) := rfl

lemma applyCuts_pre (ps : List (Bool → List Char → Bool)) :
    ∀ l : List Char, ∃ r, applyCuts ps l ++ r = l := by
  induction ps with
  | nil => intro l; exact ⟨[], by simp [applyCuts]⟩
  | cons P ps ih =>
    intro l
    obtain ⟨r1, hr1⟩ := ih (cutP P true l)
    obtain ⟨r2, hr2⟩ := cutP_pre P l true
    refine ⟨r1 ++ r2, ?_⟩
    rw [applyCuts_cons, ← List.append_assoc, hr1, hr2]

lemma hasP_applyCuts_pres {P : Bool → List Char → Bool}
    (hmono : ∀ b m r, P b m = true → P b (m ++ r) = true)
    (ps : List (Bool → List Char → Bool)) :
    ∀ l : List Char, hasP P true l = false → hasP P true (applyCuts ps l) = false := by
  induction ps with
  | nil => intro l h; simpa [applyCuts] using h
  | cons Q ps ih =>
    intro l h
    rw [applyCuts_cons]
    exact ih (cutP Q true l) (hasP_cut_other hmono h)

lemma hasP_applyCuts_est {P : Bool → List Char → Bool}
    (hmono : ∀ b m r, P b m = true → P b (m ++ r) = true)
    (hnil : ∀ b, P b [] = false)
    (ps1 ps2 : List (Bool → List Char → Bool)) (l : List Char) :
    hasP P true (applyCuts (ps1 ++ P :: ps2) l) = false := by
  have hsplit : applyCuts (ps1 ++ P :: ps2) l
      = applyCuts ps2 (cutP P true (applyCuts ps1 l)) := by
    simp [applyCuts, List.foldl_append]
  rw [hsplit]
  exact hasP_applyCuts_pres hmono ps2 _ (hasP_cutP P hmono hnil (applyCuts ps1 l) true)

lemma hasP_dropWhile_seam {P : Bool → List Char → Bool} :
    ∀ l : List Char, hasP P true (l.dropWhile isWs) = true → hasP P true l = true := by
  intro l
  induction l with
  | nil => intro h; simpa using h
  | cons c t ih =>
    intro h
    by_cases hc : isWs c = true
    · rw [List.dropWhile_cons, if_pos hc] at h
      simp only [hasP, Bool.or_eq_true]
      exact Or.inr (by rw [not_word_of_ws hc]; exact ih h)
    · rwa [List.dropWhile_cons, if_neg hc] at h

lemma rstrip_pre (z : List Char) : ∃ r, (z.reverse.dropWhile isWs).reverse ++ r = z := by
  obtain ⟨u, hu⟩ := dropWhile_suffix isWs z.reverse
  refine ⟨u.reverse, ?_⟩
  have h2 := congrArg List.reverse hu
  simpa [List.reverse_append] using h2

lemma hasP_trimL {P : Bool → List Char → Bool}
    (hmono : ∀ b m r, P b m = true → P b (m ++ r) = true)
    {l : List Char} (h : hasP P true (trimL l) = true) : hasP P true l = true := by
  obtain ⟨r, hr⟩ := rstrip_pre (l.dropWhile isWs)
  have h2 : hasP P true (l.dropWhile isWs) = true := by
    rw [← hr]
    exact hasP_append hmono _ r true h
  exact hasP_dropWhile_seam l h2

lemma exAt_head {Q : List Char → Bool} {l : List Char} (h : Q l = true) :
    exAt Q l = true := by
  cases l with
  | nil => simpa [exAt] using h
  | cons c t => simp [exAt, h]

lemma exAt_append {Q : List Char → Bool}
    (hQ : ∀ m r, Q m = true → Q (m ++ r) = true) :
    ∀ {l r : List Char}, exAt Q l = true → exAt Q (l ++ r) = true := by
  intro l
  induction l with
  | nil =>
    intro r h
    simp only [exAt] at h
    exact exAt_head (hQ [] r h)
  | cons c t ih =>
    intro r h
    simp only [exAt, Bool.or_eq_true] at h ⊢
    rcases h with h | h
    · exact Or.inl (hQ (c :: t) r h)
    · exact Or.inr (ih h)

lemma exAt_dropWhile_seam {Q : List Char → Bool} :
    ∀ l : List Char, exAt Q (l.dropWhile isWs) = true → exAt Q l = true := by
  intro l
  induction l with
  | nil => intro h; simpa using h
  | cons c t ih =>
    intro h
    by_cases hc : isWs c = true
    · rw [List.dropWhile_cons, if_pos hc] at h
      simp only [exAt, Bool.or_eq_true]
      exact Or.inr (ih h)
    · rwa [List.dropWhile_cons, if_neg hc] at h

/-! ### The whitespace-collapse simulation -/

lemma collapsed_run_inv {d : Char} {t v : List Char} (hd : isWs d = true)
    (h : Collapsed (d :: t) v) : ∃ u, v = ' ' :: u ∧ Collapsed (t.dropWhile isWs) u := by
  cases h with
  | chr hc _ => rw [hd] at hc; exact absurd hc (by simp)
  | run _ hcol => exact ⟨_, rfl, hcol⟩

lemma collapsed_subWs : ∀ l : List Char, Collapsed l (subWs l) := by
  intro l
  induction l with
  | nil => exact Collapsed.nil
  | cons c t ih =>
    cases t with
    | nil =>
      by_cases hc : isWs c = true
      · rw [show subWs [c] = [' '] from by simp [subWs, hc]]
        exact Collapsed.run hc Collapsed.nil
      · rw [show subWs [c] = [c] from by simp [subWs, hc]]
        exact Collapsed.chr (by simpa using hc) Collapsed.nil
    | cons d t2 =>
      by_cases hc : isWs c = true
      · by_cases hd : isWs d = true
        · rw [show subWs (c :: d :: t2) = subWs (d :: t2) from by simp [subWs, hc, hd]]
          obtain ⟨u, hu, hcol⟩ := collapsed_run_inv hd ih
          rw [hu]
          refine Collapsed.run hc ?_
          rwa [List.dropWhile_cons, if_pos hd]
        · rw [show subWs (c :: d :: t2) = ' ' :: subWs (d :: t2) from by simp [subWs, hc, hd]]
          refine Collapsed.run hc ?_
          rwa [List.dropWhile_cons, if_neg (by simp [hd])]
      · rw [show subWs (c :: d :: t2) = c :: subWs (d :: t2) from by simp [subWs, hc]]
        exact Collapsed.chr (by simpa using hc) ih

lemma collapsed_ciAt {w : List Char} (hw : ∀ a ∈ w, isWs a = false) :
    ∀ {m m' : List Char}, Collapsed m m' → ciAt w m' = true →
      ciAt w m = true ∧ Collapsed (m.drop w.length) (m'.drop w.length) := by
  induction w with
  | nil =>
    intro m m' hcol _
    exact ⟨rfl, by simpa using hcol⟩
  | cons a w ih =>
    intro m m' hcol h
    cases hcol with
    | nil => exact absurd h (by simp [ciAt])
    | chr hc hcol2 =>
      simp only [ciAt, Bool.and_eq_true] at h
      have hw2 : ∀ a2 ∈ w, isWs a2 = false :=
        fun a2 ha2 => hw a2 (List.mem_cons_of_mem a ha2)
      obtain ⟨h1, h2⟩ := ih hw2 hcol2 h.2
      constructor
      · simp [ciAt, h.1, h1]
      · simpa [List.drop_succ_cons] using h2
    | run hc hcol2 =>
      exfalso
      simp only [ciAt, Bool.and_eq_true] at h
      have ha := hw a (List.mem_cons_self a w)
      have hne : ((' ' : Char).toLower == a) = false := by
        rw [show (' ' : Char).toLower = ' ' from by decide]
        exact beq_false_of_ws (by decide) ha
      rw [hne] at h
      exact Bool.noConfusion h.1

lemma collapsed_headWs {m m' : List Char} (hcol : Collapsed m m')
    (h : headIs isWs m' = true) : headIs isWs m = true := by
  cases hcol with
  | nil => simpa using h
  | chr hc _ => exact absurd h (by simp [headIs, hc])
  | run hc _ => simp [headIs, hc]

lemma collapsed_dropWhileWs {m m' : List Char} (h : Collapsed m m') :
    Collapsed (m.dropWhile isWs) (m'.dropWhile isWs) := by
  cases h with
  | nil => exact Collapsed.nil
  | chr hc hcol =>
    rw [List.dropWhile_cons, if_neg (by simp [hc]),
      List.dropWhile_cons, if_neg (by simp [hc])]
    exact Collapsed.chr hc hcol
  | run hc hcol =>
    rw [List.dropWhile_cons, if_pos hc,
      List.dropWhile_cons, if_pos (by decide : isWs ' ' = true)]
    rename_i t t'
    cases hdw : t.dropWhile isWs with
    | nil =>
      rw [hdw] at hcol
      cases hcol
      simp [List.dropWhile, hdw]
      exact Collapsed.nil
    | cons d u =>
      have hd : isWs d = false := dropWhile_head_false hdw
      rw [hdw] at hcol
      cases hcol with
      | chr hc2 hcol2 =>
        rw [List.dropWhile_cons, if_neg (by simp [hd])]
        exact Collapsed.chr hd hcol2
      | run hc2 _ =>
        rw [hd] at hc2
        exact absurd hc2 (by simp)

lemma collapsed_exAt {Q : List Char → Bool}
    (hQws : ∀ c l, isWs c = true → Q (c :: l) = false)
    (hQdec : ∀ m m', Collapsed m m' → Q m' = true → Q m = true) :
    ∀ {m m' : List Char}, Collapsed m m' → exAt Q m' = true → exAt Q m = true := by
  intro m m' h
  induction h with
  | nil => intro h2; exact h2
  | chr hc hcol ih =>
    intro h2
    simp only [exAt, Bool.or_eq_true] at h2 ⊢
    rcases h2 with h2 | h2
    · exact Or.inl (hQdec _ _ (Collapsed.chr hc hcol) h2)
    · exact Or.inr (ih h2)
  | run hc hcol ih =>
    intro h2
    simp only [exAt, Bool.or_eq_true] at h2
    rcases h2 with h2 | h2
    · rw [hQws ' ' _ (by decide)] at h2
      exact Bool.noConfusion h2
    · have h4 := exAt_dropWhile_seam _ (ih h2)
      simp only [exAt, Bool.or_eq_true]
      exact Or.inr h4

lemma collapsed_contains {a : Char} (ha : isWs a = false) :
    ∀ {m m' : List Char}, Collapsed m m' → m'.contains a = true → m.contains a = true := by
  intro m m' h
  induction h with
  | nil => intro h2; exact h2
  | chr hc hcol ih =>
    intro h2
    rcases contains_head_or_tail h2 with h2 | h2
    · exact contains_mem.mpr (h2 ▸ List.mem_cons_self _ _)
    · exact contains_cons_of_tail (ih h2)
  | run hc hcol ih =>
    intro h2
    rcases contains_head_or_tail h2 with h2 | h2
    · rw [h2] at ha
      exact absurd ha (by decide)
    · exact contains_cons_of_tail (contains_of_dropWhile (ih h2))

lemma hasP_collapsed {P : Bool → List Char → Bool}
    (hws : ∀ b c l, isWs c = true → P b (c :: l) = false)
    (hdec : ∀ b m m', Collapsed m m' → P b m' = true → P b m = true) :
    ∀ {m m' : List Char}, Collapsed m m' → ∀ b, hasP P b m' = true → hasP P b m = true := by
  intro m m' h
  induction h with
  | nil => intro b h2; exact h2
  | chr hc hcol ih =>
    rename_i c t t'
    intro b h2
    simp only [hasP, Bool.or_eq_true] at h2 ⊢
    rcases h2 with h2 | h2
    · exact Or.inl (hdec b _ _ (Collapsed.chr hc hcol) h2)
    · exact Or.inr (ih (!isWord c) h2)
  | run hc hcol ih =>
    rename_i c t t'
    intro b h2
    simp only [hasP, Bool.or_eq_true] at h2
    rcases h2 with h2 | h2
    · rw [hws b ' ' _ (by decide)] at h2
      exact Bool.noConfusion h2
    · have h2' : hasP P true t' = true := by
        simpa [show isWord ' ' = false from by decide] using h2
      have h4 := hasP_dropWhile_seam _ (ih true h2')
      simp only [hasP, Bool.or_eq_true]
      refine Or.inr ?_
      rw [not_word_of_ws hc]
      exact h4

lemma hasP_collapse_stage {P : Bool → List Char → Bool}
    (hmono : ∀ b m r, P b m = true → P b (m ++ r) = true)
    (hws : ∀ b c l, isWs c = true → P b (c :: l) = false)
    (hdec : ∀ b m m', Collapsed m m' → P b m' = true → P b m = true)
    {l : List Char} (h : hasP P true l = false) :
    hasP P true (trimL (subWs l)) = false := by
  rcases hh : hasP P true (trimL (subWs l)) with _ | _
  · rfl
  · exfalso
    have h2 := hasP_trimL hmono hh
    have h3 := hasP_collapsed hws hdec (collapsed_subWs l) true h2
    rw [h3] at h
    exact Bool.noConfusion h

/-! ### Per-pattern obligations: monotonicity, emptiness, whitespace head,
and decollapse -/

lemma ciAt_false_of_ws_of_head {w : List Char} {a c : Char} {l : List Char}
    (hw : w.head? = some a) (ha : isWs a = false) (hc : isWs c = true) :
    ciAt w (c :: l) = false := by
  cases w with
  | nil => simp at hw
  | cons a2 w2 =>
    obtain rfl : a2 = a := by simpa using hw
    exact ciAt_false_of_ws hc ha

lemma collapsed_headIs {p : Char → Bool} (hp : p ' ' = false) {m m' : List Char}
    (hcol : Collapsed m m') (h : headIs p m' = true) : headIs p m = true := by
  cases hcol with
  | nil => simpa using h
  | chr _ _ => exact h
  | run hc _ => exact absurd h (by simp [headIs, hp])

lemma collapsed_headNeGt {m m' : List Char} (hcol : Collapsed m m')
    (h : headIs (fun x => !(x == '>')) m' = true) :
    headIs (fun x => !(x == '>')) m = true := by
  cases hcol with
  | nil => simpa using h
  | chr _ _ => exact h
  | run hc _ => simp [headIs, beq_false_of_ws hc (by decide : isWs '>' = false)]

lemma hdr_mono {w : List Char} {n : Nat} {m r : List Char}
    (h1 : ciAt w m = true) (h2 : headIs isWs (m.drop n) = true) :
    ciAt w (m ++ r) = true ∧ headIs isWs ((m ++ r).drop n) = true := by
  have hn : m.drop n ≠ [] := headIs_ne_nil h2
  rw [drop_append_of_ne_nil hn]
  exact ⟨ciAt_append h1, headIs_append h2⟩

lemma hdr_dec {w : List Char} {n : Nat} (hw : ∀ a ∈ w, isWs a = false)
    (hlen : w.length = n) {m m' : List Char} (hcol : Collapsed m m')
    (h1 : ciAt w m' = true) (h2 : headIs isWs (m'.drop n) = true) :
    ciAt w m = true ∧ headIs isWs (m.drop n) = true := by
  obtain ⟨hc1, hcd⟩ := collapsed_ciAt hw hcol h1
  rw [hlen] at hcd
  exact ⟨hc1, collapsed_headWs hcd h2⟩

lemma gap_mono {w1 : List Char} {a2 : Char} {w2 : List Char} {n : Nat} {m r : List Char}
    (h1 : ciAt w1 m = true) (h2 : headIs isWs (m.drop n) = true)
    (h3 : ciAt (a2 :: w2) ((m.drop n).dropWhile isWs) = true) :
    ciAt w1 (m ++ r) = true ∧ headIs isWs ((m ++ r).drop n) = true ∧
      ciAt (a2 :: w2) (((m ++ r).drop n).dropWhile isWs) = true := by
  have hn : m.drop n ≠ [] := headIs_ne_nil h2
  have hdw : (m.drop n).dropWhile isWs ≠ [] := ciAt_cons_ne_nil h3
  rw [drop_append_of_ne_nil hn, dropWhile_append_of_ne_nil hdw]
  exact ⟨ciAt_append h1, headIs_append h2, ciAt_append h3⟩

lemma gap_dec {w1 : List Char} {a2 : Char} {w2 : List Char} {n : Nat} {m m' : List Char}
    (hw1 : ∀ a ∈ w1, isWs a = false) (hlen : w1.length = n)
    (hw2 : ∀ a ∈ a2 :: w2, isWs a = false) (hcol : Collapsed m m')
    (h1 : ciAt w1 m' = true) (h2 : headIs isWs (m'.drop n) = true)
    (h3 : ciAt (a2 :: w2) ((m'.drop n).dropWhile isWs) = true) :
    ciAt w1 m = true ∧ headIs isWs (m.drop n) = true ∧
      ciAt (a2 :: w2) ((m.drop n).dropWhile isWs) = true ∧
      Collapsed (((m.drop n).dropWhile isWs).drop (a2 :: w2).length)
        (((m'.drop n).dropWhile isWs).drop (a2 :: w2).length) := by
  obtain ⟨hc1, hcd⟩ := collapsed_ciAt hw1 hcol h1
  rw [hlen] at hcd
  have hh := collapsed_headWs hcd h2
  have hcd2 := collapsed_dropWhileWs hcd
  obtain ⟨hc2, hcd3⟩ := collapsed_ciAt hw2 hcd2 h3
  exact ⟨hc1, hh, hc2, hcd3⟩

lemma fromAt_mono : ∀ (b : Bool) (m r : List Char),
    fromAt b m = true → fromAt b (m ++ r) = true := by
  intro b m r h
  simp only [fromAt, Bool.and_eq_true] at h ⊢
  obtain ⟨⟨hb, h1⟩, h2⟩ := h
  obtain ⟨g1, g2⟩ := hdr_mono h1 h2
  exact ⟨⟨hb, g1⟩, g2⟩

lemma fromAt_nil : ∀ b : Bool, fromAt b [] = false := by
  intro b
  cases b <;> decide

lemma fromAt_ws : ∀ (b : Bool) (c : Char) (l : List Char),
    isWs c = true → fromAt b (c :: l) = false := by
  intro b c l hc
  simp [fromAt,
    ciAt_false_of_ws_of_head (show ("from:".data).head? = some 'f' from by decide)
      (by decide) hc]

lemma fromAt_dec : ∀ (b : Bool) (m m' : List Char),
    Collapsed m m' → fromAt b m' = true → fromAt b m = true := by
  intro b m m' hcol h
  simp only [fromAt, Bool.and_eq_true] at h ⊢
  obtain ⟨⟨hb, h1⟩, h2⟩ := h
  obtain ⟨g1, g2⟩ := hdr_dec (by decide) (by decide) hcol h1 h2
  exact ⟨⟨hb, g1⟩, g2⟩

lemma sentAt_mono : ∀ (b : Bool) (m r : List Char),
    sentAt b m = true → sentAt b (m ++ r) = true := by
  intro b m r h
  simp only [sentAt, Bool.and_eq_true] at h ⊢
  obtain ⟨⟨hb, h1⟩, h2⟩ := h
  obtain ⟨g1, g2⟩ := hdr_mono h1 h2
  exact ⟨⟨hb, g1⟩, g2⟩

lemma sentAt_nil : ∀ b : Bool, sentAt b [] = false := by
  intro b
  cases b <;> decide

lemma sentAt_ws : ∀ (b : Bool) (c : Char) (l : List Char),
    isWs c = true → sentAt b (c :: l) = false := by
  intro b c l hc
  simp [sentAt,
    ciAt_false_of_ws_of_head (show ("sent:".data).head? = some 's' from by decide)
      (by decide) hc]

lemma sentAt_dec : ∀ (b : Bool) (m m' : List Char),
    Collapsed m m' → sentAt b m' = true → sentAt b m = true := by
  intro b m m' hcol h
  simp only [sentAt, Bool.and_eq_true] at h ⊢
  obtain ⟨⟨hb, h1⟩, h2⟩ := h
  obtain ⟨g1, g2⟩ := hdr_dec (by decide) (by decide) hcol h1 h2
  exact ⟨⟨hb, g1⟩, g2⟩

lemma toAt_mono : ∀ (b : Bool) (m r : List Char),
    toAt b m = true → toAt b (m ++ r) = true := by
  intro b m r h
  simp only [toAt, Bool.and_eq_true] at h ⊢
  obtain ⟨⟨hb, h1⟩, h2⟩ := h
  obtain ⟨g1, g2⟩ := hdr_mono h1 h2
  exact ⟨⟨hb, g1⟩, g2⟩

lemma toAt_nil : ∀ b : Bool, toAt b [] = false := by
  intro b
  cases b <;> decide

lemma toAt_ws : ∀ (b : Bool) (c : Char) (l : List Char),
    isWs c = true → toAt b (c :: l) = false := by
  intro b c l hc
  simp [toAt,
    ciAt_false_of_ws_of_head (show ("to:".data).head? = some 't' from by decide)
      (by decide) hc]

lemma toAt_dec : ∀ (b : Bool) (m m' : List Char),
    Collapsed m m' → toAt b m' = true → toAt b m = true := by
  intro b m m' hcol h
  simp only [toAt, Bool.and_eq_true] at h ⊢
  obtain ⟨⟨hb, h1⟩, h2⟩ := h
  obtain ⟨g1, g2⟩ := hdr_dec (by decide) (by decide) hcol h1 h2
  exact ⟨⟨hb, g1⟩, g2⟩

lemma subjAt_mono : ∀ (b : Bool) (m r : List Char),
    subjAt b m = true → subjAt b (m ++ r) = true := by
  intro b m r h
  simp only [subjAt, Bool.and_eq_true] at h ⊢
  obtain ⟨⟨hb, h1⟩, h2⟩ := h
  obtain ⟨g1, g2⟩ := hdr_mono h1 h2
  exact ⟨⟨hb, g1⟩, g2⟩

lemma subjAt_nil : ∀ b : Bool, subjAt b [] = false := by
  intro b
  cases b <;> decide

lemma subjAt_ws : ∀ (b : Bool) (c : Char) (l : List Char),
    isWs c = true → subjAt b (c :: l) = false := by
  intro b c l hc
  simp [subjAt,
    ciAt_false_of_ws_of_head (show ("subject:".data).head? = some 's' from by decide)
      (by decide) hc]

lemma subjAt_dec : ∀ (b : Bool) (m m' : List Char),
    Collapsed m m' → subjAt b m' = true → subjAt b m = true := by
  intro b m m' hcol h
  simp only [subjAt, Bool.and_eq_true] at h ⊢
  obtain ⟨⟨hb, h1⟩, h2⟩ := h
  obtain ⟨g1, g2⟩ := hdr_dec (by decide) (by decide) hcol h1 h2
  exact ⟨⟨hb, g1⟩, g2⟩

lemma thanksAt_mono : ∀ (b : Bool) (m r : List Char),
    thanksAt b m = true → thanksAt b (m ++ r) = true := by
  intro b m r h
  exact ciAt_append h

lemma thanksAt_nil : ∀ b : Bool, thanksAt b [] = false := by
  intro b
  cases b <;> decide

lemma thanksAt_ws : ∀ (b : Bool) (c : Char) (l : List Char),
    isWs c = true → thanksAt b (c :: l) = false := by
  intro b c l hc
  exact ciAt_false_of_ws_of_head (show ("thanks".data).head? = some 't' from by decide)
    (by decide) hc

lemma thanksAt_dec : ∀ (b : Bool) (m m' : List Char),
    Collapsed m m' → thanksAt b m' = true → thanksAt b m = true := by
  intro b m m' hcol h
  exact (collapsed_ciAt (by decide) hcol h).1

lemma regardsAt_mono : ∀ (b : Bool) (m r : List Char),
    regardsAt b m = true → regardsAt b (m ++ r) = true := by
  intro b m r h
  exact ciAt_append h

lemma regardsAt_nil : ∀ b : Bool, regardsAt b [] = false := by
  intro b
  cases b <;> decide

lemma regardsAt_ws : ∀ (b : Bool) (c : Char) (l : List Char),
    isWs c = true → regardsAt b (c :: l) = false := by
  intro b c l hc
  exact ciAt_false_of_ws_of_head (show ("regards".data).head? = some 'r' from by decide)
    (by decide) hc

lemma regardsAt_dec : ∀ (b : Bool) (m m' : List Char),
    Collapsed m m' → regardsAt b m' = true → regardsAt b m = true := by
  intro b m m' hcol h
  exact (collapsed_ciAt (by decide) hcol h).1

lemma warmRegAt_mono : ∀ (b : Bool) (m r : List Char),
    warmRegAt b m = true → warmRegAt b (m ++ r) = true := by
  intro b m r h
  simp only [warmRegAt, Bool.and_eq_true] at h ⊢
  obtain ⟨⟨h1, h2⟩, h3⟩ := h
  obtain ⟨g1, g2, g3⟩ := gap_mono (r := r) h1 h2 h3
  exact ⟨⟨g1, g2⟩, g3⟩

lemma warmRegAt_nil : ∀ b : Bool, warmRegAt b [] = false := by
  intro b
  cases b <;> decide

lemma warmRegAt_ws : ∀ (b : Bool) (c : Char) (l : List Char),
    isWs c = true → warmRegAt b (c :: l) = false := by
  intro b c l hc
  simp [warmRegAt,
    ciAt_false_of_ws_of_head (show ("warm".data).head? = some 'w' from by decide)
      (by decide) hc]

lemma warmRegAt_dec : ∀ (b : Bool) (m m' : List Char),
    Collapsed m m' → warmRegAt b m' = true → warmRegAt b m = true := by
  intro b m m' hcol h
  simp only [warmRegAt, Bool.and_eq_true] at h ⊢
  obtain ⟨⟨h1, h2⟩, h3⟩ := h
  obtain ⟨g1, g2, g3, _⟩ := gap_dec (by decide) (by decide) (by decide) hcol h1 h2 h3
  exact ⟨⟨g1, g2⟩, g3⟩

lemma teamAstroAt_mono : ∀ (b : Bool) (m r : List Char),
    teamAstroAt b m = true → teamAstroAt b (m ++ r) = true := by
  intro b m r h
  simp only [teamAstroAt, Bool.and_eq_true] at h ⊢
  obtain ⟨⟨h1, h2⟩, h3⟩ := h
  obtain ⟨g1, g2, g3⟩ := gap_mono (r := r) h1 h2 h3
  exact ⟨⟨g1, g2⟩, g3⟩

lemma teamAstroAt_nil : ∀ b : Bool, teamAstroAt b [] = false := by
  intro b
  cases b <;> decide

lemma teamAstroAt_ws : ∀ (b : Bool) (c : Char) (l : List Char),
    isWs c = true → teamAstroAt b (c :: l) = false := by
  intro b c l hc
  simp [teamAstroAt,
    ciAt_false_of_ws_of_head (show ("team".data).head? = some 't' from by decide)
      (by decide) hc]

lemma teamAstroAt_dec : ∀ (b : Bool) (m m' : List Char),
    Collapsed m m' → teamAstroAt b m' = true → teamAstroAt b m = true := by
  intro b m m' hcol h
  simp only [teamAstroAt, Bool.and_eq_true] at h ⊢
  obtain ⟨⟨h1, h2⟩, h3⟩ := h
  obtain ⟨g1, g2, g3, _⟩ := gap_dec (by decide) (by decide) (by decide) hcol h1 h2 h3
  exact ⟨⟨g1, g2⟩, g3⟩

lemma custSupAt_mono : ∀ (b : Bool) (m r : List Char),
    custSupAt b m = true → custSupAt b (m ++ r) = true := by
  intro b m r h
  simp only [custSupAt, Bool.and_eq_true] at h ⊢
  obtain ⟨⟨h1, h2⟩, h3⟩ := h
  obtain ⟨g1, g2, g3⟩ := gap_mono (r := r) h1 h2 h3
  exact ⟨⟨g1, g2⟩, g3⟩

lemma custSupAt_nil : ∀ b : Bool, custSupAt b [] = false := by
  intro b
  cases b <;> decide

lemma custSupAt_ws : ∀ (b : Bool) (c : Char) (l : List Char),
    isWs c = true → custSupAt b (c :: l) = false := by
  intro b c l hc
  simp [custSupAt,
    ciAt_false_of_ws_of_head (show ("customer".data).head? = some 'c' from by decide)
      (by decide) hc]

lemma custSupAt_dec : ∀ (b : Bool) (m m' : List Char),
    Collapsed m m' → custSupAt b m' = true → custSupAt b m = true := by
  intro b m m' hcol h
  simp only [custSupAt, Bool.and_eq_true] at h ⊢
  obtain ⟨⟨h1, h2⟩, h3⟩ := h
  obtain ⟨g1, g2, g3, _⟩ := gap_dec (by decide) (by decide) (by decide) hcol h1 h2 h3
  exact ⟨⟨g1, g2⟩, g3⟩

lemma astroArunAt_mono : ∀ (b : Bool) (m r : List Char),
    astroArunAt b m = true → astroArunAt b (m ++ r) = true := by
  intro b m r h
  simp only [astroArunAt, Bool.and_eq_true] at h ⊢
  obtain ⟨⟨⟨⟨h1, h2⟩, h3⟩, h4⟩, h5⟩ := h
  have hn : m.drop 5 ≠ [] := headIs_ne_nil h2
  have hdw1 : (m.drop 5).dropWhile isWs ≠ [] := by
    intro he; rw [he] at h3; exact absurd h3 (by decide)
  have hn4 : ((m.drop 5).dropWhile isWs).drop 4 ≠ [] := headIs_ne_nil h4
  have hdw2 : (((m.drop 5).dropWhile isWs).drop 4).dropWhile isWs ≠ [] := by
    intro he; rw [he] at h5; exact absurd h5 (by decide)
  rw [drop_append_of_ne_nil hn, dropWhile_append_of_ne_nil hdw1,
    drop_append_of_ne_nil hn4, dropWhile_append_of_ne_nil hdw2]
  exact ⟨⟨⟨⟨ciAt_append h1, headIs_append h2⟩, ciAt_append h3⟩, headIs_append h4⟩,
    ciAt_append h5⟩

lemma astroArunAt_nil : ∀ b : Bool, astroArunAt b [] = false := by
  intro b
  cases b <;> decide

lemma astroArunAt_ws : ∀ (b : Bool) (c : Char) (l : List Char),
    isWs c = true → astroArunAt b (c :: l) = false := by
  intro b c l hc
  simp [astroArunAt,
    ciAt_false_of_ws_of_head (show ("astro".data).head? = some 'a' from by decide)
      (by decide) hc]

lemma astroArunAt_dec : ∀ (b : Bool) (m m' : List Char),
    Collapsed m m' → astroArunAt b m' = true → astroArunAt b m = true := by
  intro b m m' hcol h
  simp only [astroArunAt, Bool.and_eq_true] at h ⊢
  obtain ⟨⟨⟨⟨h1, h2⟩, h3⟩, h4⟩, h5⟩ := h
  obtain ⟨g1, hcd⟩ :=
    collapsed_ciAt (by decide : ∀ a ∈ "astro".data, isWs a = false) hcol h1
  rw [show ("astro".data).length = 5 from by decide] at hcd
  have g2 := collapsed_headWs hcd h2
  have hcd2 := collapsed_dropWhileWs hcd
  obtain ⟨g3, hcd3⟩ :=
    collapsed_ciAt (by decide : ∀ a ∈ "arun".data, isWs a = false) hcd2 h3
  rw [show ("arun".data).length = 4 from by decide] at hcd3
  have g4 := collapsed_headWs hcd3 h4
  have hcd4 := collapsed_dropWhileWs hcd3
  obtain ⟨g5, _⟩ :=
    collapsed_ciAt (by decide : ∀ a ∈ "pandit".data, isWs a = false) hcd4 h5
  exact ⟨⟨⟨⟨g1, g2⟩, g3⟩, g4⟩, g5⟩

lemma wroteColonQ_mono : ∀ (m r : List Char),
    wroteColonQ m = true → wroteColonQ (m ++ r) = true := by
  intro m r h
  simp only [wroteColonQ, Bool.and_eq_true] at h ⊢
  obtain ⟨h1, h2⟩ := h
  have hdw : (m.drop 5).dropWhile isWs ≠ [] := headIs_ne_nil h2
  have hn : m.drop 5 ≠ [] := by
    intro he; rw [he] at hdw; exact hdw rfl
  rw [drop_append_of_ne_nil hn, dropWhile_append_of_ne_nil hdw]
  exact ⟨ciAt_append h1, headIs_append h2⟩

lemma wroteColonQ_ws : ∀ (c : Char) (l : List Char),
    isWs c = true → wroteColonQ (c :: l) = false := by
  intro c l hc
  simp [wroteColonQ,
    ciAt_false_of_ws_of_head (show ("wrote".data).head? = some 'w' from by decide)
      (by decide) hc]

lemma wroteColonQ_dec : ∀ (m m' : List Char),
    Collapsed m m' → wroteColonQ m' = true → wroteColonQ m = true := by
  intro m m' hcol h
  simp only [wroteColonQ, Bool.and_eq_true] at h ⊢
  obtain ⟨h1, h2⟩ := h
  obtain ⟨g1, hcd⟩ :=
    collapsed_ciAt (by decide : ∀ a ∈ "wrote".data, isWs a = false) hcol h1
  rw [show ("wrote".data).length = 5 from by decide] at hcd
  exact ⟨g1, collapsed_headIs (by decide) (collapsed_dropWhileWs hcd) h2⟩

lemma onWroteAt_mono : ∀ (b : Bool) (m r : List Char),
    onWroteAt b m = true → onWroteAt b (m ++ r) = true := by
  intro b m r h
  simp only [onWroteAt, Bool.and_eq_true] at h ⊢
  obtain ⟨⟨⟨hb, h1⟩, h2⟩, h3⟩ := h
  have hn2 : m.drop 2 ≠ [] := headIs_ne_nil h2
  have hn3 : m.drop 3 ≠ [] := by
    intro he; rw [he] at h3; exact absurd h3 (by decide)
  rw [drop_append_of_ne_nil hn2, drop_append_of_ne_nil hn3]
  exact ⟨⟨⟨hb, ciAt_append h1⟩, headIs_append h2⟩, exAt_append wroteColonQ_mono h3⟩

lemma onWroteAt_nil : ∀ b : Bool, onWroteAt b [] = false := by
  intro b
  cases b <;> decide

lemma onWroteAt_ws : ∀ (b : Bool) (c : Char) (l : List Char),
    isWs c = true → onWroteAt b (c :: l) = false := by
  intro b c l hc
  simp [onWroteAt,
    ciAt_false_of_ws_of_head (show ("on".data).head? = some 'o' from by decide)
      (by decide) hc]

lemma onWroteAt_dec : ∀ (b : Bool) (m m' : List Char),
    Collapsed m m' → onWroteAt b m' = true → onWroteAt b m = true := by
  intro b m m' hcol h
  simp only [onWroteAt, Bool.and_eq_true] at h ⊢
  obtain ⟨⟨⟨hb, h1⟩, h2⟩, h3⟩ := h
  obtain ⟨g1, hcd⟩ :=
    collapsed_ciAt (by decide : ∀ a ∈ "on".data, isWs a = false) hcol h1
  rw [show ("on".data).length = 2 from by decide] at hcd
  have g2 := collapsed_headWs hcd h2
  refine ⟨⟨⟨hb, g1⟩, g2⟩, ?_⟩
  cases hcm : m.drop 2 with
  | nil => rw [hcm] at g2; exact absurd g2 (by decide)
  | cons c t =>
    rw [hcm] at hcd g2
    have hc : isWs c = true := by simpa [headIs] using g2
    obtain ⟨u', hu', hcol2⟩ := collapsed_run_inv hc hcd
    have e1 : m.drop 3 = t := by
      have hd := List.drop_drop 1 2 m
      rw [hcm] at hd
      simpa using hd.symm
    have e2 : m'.drop 3 = u' := by
      have hd := List.drop_drop 1 2 m'
      rw [hu'] at hd
      simpa using hd.symm
    rw [e2] at h3
    rw [e1]
    exact exAt_dropWhile_seam t (collapsed_exAt wroteColonQ_ws wroteColonQ_dec hcol2 h3)

lemma gtWroteAt_mono : ∀ (b : Bool) (m r : List Char),
    gtWroteAt b m = true → gtWroteAt b (m ++ r) = true := by
  intro b m r h
  simp only [gtWroteAt, Bool.and_eq_true] at h ⊢
  obtain ⟨h1, h2⟩ := h
  have hdw : (m.drop 1).dropWhile isWs ≠ [] := by
    intro he; rw [he] at h2; exact absurd h2 (by decide)
  have hn : m.drop 1 ≠ [] := by
    intro he; rw [he] at hdw; exact hdw rfl
  rw [drop_append_of_ne_nil hn, dropWhile_append_of_ne_nil hdw]
  exact ⟨headIs_append h1, ciAt_append h2⟩

lemma gtWroteAt_nil : ∀ b : Bool, gtWroteAt b [] = false := by
  intro b
  cases b <;> decide

lemma gtWroteAt_ws : ∀ (b : Bool) (c : Char) (l : List Char),
    isWs c = true → gtWroteAt b (c :: l) = false := by
  intro b c l hc
  simp [gtWroteAt, headIs, beq_false_of_ws hc (by decide : isWs '>' = false)]

lemma gtWroteAt_dec : ∀ (b : Bool) (m m' : List Char),
    Collapsed m m' → gtWroteAt b m' = true → gtWroteAt b m = true := by
  intro b m m' hcol h
  simp only [gtWroteAt, Bool.and_eq_true] at h ⊢
  obtain ⟨h1, h2⟩ := h
  cases hcol with
  | nil => exact absurd h1 (by decide)
  | run hc _ => exact absurd h1 (by simp [headIs])
  | chr hc hcol2 =>
    rename_i c t t'
    refine ⟨h1, ?_⟩
    have h2' : ciAt "wrote:".data (t'.dropWhile isWs) = true := h2
    exact (collapsed_ciAt (by decide : ∀ a ∈ "wrote:".data, isWs a = false)
      (collapsed_dropWhileWs hcol2) h2').1

lemma tagAt_mono : ∀ (b : Bool) (m r : List Char),
    tagAt b m = true → tagAt b (m ++ r) = true := by
  intro b m r h
  simp only [tagAt, Bool.and_eq_true] at h ⊢
  obtain ⟨⟨h1, h2⟩, h3⟩ := h
  have hn : m.drop 1 ≠ [] := headIs_ne_nil h2
  rw [drop_append_of_ne_nil hn]
  exact ⟨⟨headIs_append h1, headIs_append h2⟩, contains_append_left h3⟩

lemma tagAt_nil : ∀ b : Bool, tagAt b [] = false := by
  intro b
  cases b <;> decide

lemma tagAt_ws : ∀ (b : Bool) (c : Char) (l : List Char),
    isWs c = true → tagAt b (c :: l) = false := by
  intro b c l hc
  simp [tagAt, headIs, beq_false_of_ws hc (by decide : isWs '<' = false)]

lemma tagAt_dec : ∀ (b : Bool) (m m' : List Char),
    Collapsed m m' → tagAt b m' = true → tagAt b m = true := by
  intro b m m' hcol h
  simp only [tagAt, Bool.and_eq_true] at h ⊢
  obtain ⟨⟨h1, h2⟩, h3⟩ := h
  cases hcol with
  | nil => exact absurd h1 (by decide)
  | run hc _ => exact absurd h1 (by simp [headIs])
  | chr hc hcol2 =>
    rename_i c t t'
    have h2' : headIs (fun x => !(x == '>')) t' = true := h2
    have h3' : t'.contains '>' = true := h3
    exact ⟨⟨h1, collapsed_headNeGt hcol2 h2'⟩,
      collapsed_contains (by decide) hcol2 h3'⟩

/-! ### The tag stripper produces tag-free text -/

lemma hasP_tag_no_gt : ∀ l : List Char, l.contains '>' = false →
    ∀ b, hasP tagAt b l = false := by
  intro l
  induction l with
  | nil => intro _ b; cases b <;> decide
  | cons c t ih =>
    intro h b
    have hm : ('>' : Char) ∉ c :: t := by
      intro hmem
      rw [contains_mem.mpr hmem] at h
      exact Bool.noConfusion h
    have ht : t.contains '>' = false := by
      rcases hh : t.contains '>' with _ | _
      · rfl
      · exact absurd (List.mem_cons_of_mem c (contains_mem.mp hh)) hm
    simp only [hasP, Bool.or_eq_false_iff]
    refine ⟨?_, ih ht (!isWord c)⟩
    have ht' : ('>' : Char) ∉ t := fun hmem => hm (List.mem_cons_of_mem c hmem)
    simp [tagAt, show (c :: t).drop 1 = t from rfl, ht']

lemma hasP_stripGo : ∀ l : List Char,
    (∀ b, hasP tagAt b (stripGo l none) = false) ∧
    (∀ buf, buf.contains '>' = false →
      ∀ b, hasP tagAt b (stripGo l (some buf)) = false) := by
  intro l
  induction l with
  | nil =>
    constructor
    · intro b; cases b <;> decide
    · intro buf hbuf b
      apply hasP_tag_no_gt
      rw [show stripGo [] (some buf) = '<' :: buf.reverse from rfl]
      rcases hh : ('<' :: buf.reverse).contains '>' with _ | _
      · rfl
      · exfalso
        rcases List.mem_cons.mp (contains_mem.mp hh) with h1 | h1
        · exact absurd h1 (by decide)
        · rw [contains_mem.mpr (List.mem_reverse.mp h1)] at hbuf
          exact Bool.noConfusion hbuf
  | cons c t ih =>
    constructor
    · intro b
      by_cases hc : c = '<'
      · subst hc
        rw [show stripGo ('<' :: t) none = stripGo t (some []) from by simp [stripGo]]
        exact ih.2 [] (by decide) b
      · rw [show stripGo (c :: t) none = c :: stripGo t none from by simp [stripGo, hc]]
        simp only [hasP, Bool.or_eq_false_iff]
        refine ⟨?_, ih.1 _⟩
        simp [tagAt, headIs, beq_eq_false_iff_ne.mpr hc]
    · intro buf hbuf b
      by_cases hc : c = '>'
      · subst hc
        by_cases hb : buf.isEmpty = true
        · rw [show stripGo ('>' :: t) (some buf) = '<' :: '>' :: stripGo t none
            from by simp [stripGo, hb]]
          simp only [hasP, Bool.or_eq_false_iff]
          exact ⟨by simp [tagAt, headIs], ⟨by simp [tagAt, headIs], ih.1 _⟩⟩
        · rw [show stripGo ('>' :: t) (some buf) = ' ' :: stripGo t none
            from by simp [stripGo, hb]]
          simp only [hasP, Bool.or_eq_false_iff]
          exact ⟨by simp [tagAt, headIs], ih.1 _⟩
      · rw [show stripGo (c :: t) (some buf) = stripGo t (some (c :: buf))
          from by simp [stripGo, hc]]
        apply ih.2
        rcases hh : (c :: buf).contains '>' with _ | _
        · rfl
        · exfalso
          rcases List.mem_cons.mp (contains_mem.mp hh) with h1 | h1
          · exact hc h1.symm
          · rw [contains_mem.mpr h1] at hbuf
            exact Bool.noConfusion hbuf

lemma hasP_stripTags (l : List Char) (b : Bool) : hasP tagAt b (stripTags l) = false :=
  (hasP_stripGo l).1 b

/-! ### Pattern absence through the whole pipeline -/

lemma footStage_no_thanks (l : List Char) : hasP thanksAt true (footStageL l) = false := by
  unfold footStageL
  rw [show footerCuts = [] ++ thanksAt ::
    [warmRegAt, regardsAt, teamAstroAt, astroArunAt, custSupAt] from rfl]
  exact hasP_applyCuts_est thanksAt_mono thanksAt_nil _ _ _

lemma footStage_no_warmReg (l : List Char) : hasP warmRegAt true (footStageL l) = false := by
  unfold footStageL
  rw [show footerCuts = [thanksAt] ++ warmRegAt ::
    [regardsAt, teamAstroAt, astroArunAt, custSupAt] from rfl]
  exact hasP_applyCuts_est warmRegAt_mono warmRegAt_nil _ _ _

lemma footStage_no_regards (l : List Char) : hasP regardsAt true (footStageL l) = false := by
  unfold footStageL
  rw [show footerCuts = [thanksAt, warmRegAt] ++ regardsAt ::
    [teamAstroAt, astroArunAt, custSupAt] from rfl]
  exact hasP_applyCuts_est regardsAt_mono regardsAt_nil _ _ _

lemma footStage_no_teamAstro (l : List Char) : hasP teamAstroAt true (footStageL l) = false := by
  unfold footStageL
  rw [show footerCuts = [thanksAt, warmRegAt, regardsAt] ++ teamAstroAt ::
    [astroArunAt, custSupAt] from rfl]
  exact hasP_applyCuts_est teamAstroAt_mono teamAstroAt_nil _ _ _

lemma footStage_no_astroArun (l : List Char) : hasP astroArunAt true (footStageL l) = false := by
  unfold footStageL
  rw [show footerCuts = [thanksAt, warmRegAt, regardsAt, teamAstroAt] ++ astroArunAt ::
    [custSupAt] from rfl]
  exact hasP_applyCuts_est astroArunAt_mono astroArunAt_nil _ _ _

lemma footStage_no_custSup (l : List Char) : hasP custSupAt true (footStageL l) = false := by
  unfold footStageL
  rw [show footerCuts = [thanksAt, warmRegAt, regardsAt, teamAstroAt, astroArunAt] ++
    custSupAt :: [] from rfl]
  exact hasP_applyCuts_est custSupAt_mono custSupAt_nil _ _ _

lemma efmL_no_tag (s : List Char) : hasP tagAt true (efmL s) = false := by
  unfold efmL footStageL replyStageL
  apply hasP_collapse_stage tagAt_mono tagAt_ws tagAt_dec
  apply hasP_applyCuts_pres tagAt_mono footerCuts
  apply hasP_applyCuts_pres tagAt_mono replyCuts
  exact hasP_stripTags _ true

lemma efmL_no_onWrote (s : List Char) : hasP onWroteAt true (efmL s) = false := by
  unfold efmL footStageL replyStageL
  apply hasP_collapse_stage onWroteAt_mono onWroteAt_ws onWroteAt_dec
  apply hasP_applyCuts_pres onWroteAt_mono footerCuts
  rw [show replyCuts = [] ++ onWroteAt ::
    [fromAt, sentAt, toAt, subjAt, origAt, fwdAt, gtWroteAt] from rfl]
  exact hasP_applyCuts_est onWroteAt_mono onWroteAt_nil _ _ _

lemma efmL_no_from (s : List Char) : hasP fromAt true (efmL s) = false := by
  unfold efmL footStageL replyStageL
  apply hasP_collapse_stage fromAt_mono fromAt_ws fromAt_dec
  apply hasP_applyCuts_pres fromAt_mono footerCuts
  rw [show replyCuts = [onWroteAt] ++ fromAt ::
    [sentAt, toAt, subjAt, origAt, fwdAt, gtWroteAt] from rfl]
  exact hasP_applyCuts_est fromAt_mono fromAt_nil _ _ _

lemma efmL_no_sent (s : List Char) : hasP sentAt true (efmL s) = false := by
  unfold efmL footStageL replyStageL
  apply hasP_collapse_stage sentAt_mono sentAt_ws sentAt_dec
  apply hasP_applyCuts_pres sentAt_mono footerCuts
  rw [show replyCuts = [onWroteAt, fromAt] ++ sentAt ::
    [toAt, subjAt, origAt, fwdAt, gtWroteAt] from rfl]
  exact hasP_applyCuts_est sentAt_mono sentAt_nil _ _ _

lemma efmL_no_to (s : List Char) : hasP toAt true (efmL s) = false := by
  unfold efmL footStageL replyStageL
  apply hasP_collapse_stage toAt_mono toAt_ws toAt_dec
  apply hasP_applyCuts_pres toAt_mono footerCuts
  rw [show replyCuts = [onWroteAt, fromAt, sentAt] ++ toAt ::
    [subjAt, origAt, fwdAt, gtWroteAt] from rfl]
  exact hasP_applyCuts_est toAt_mono toAt_nil _ _ _

lemma efmL_no_subj (s : List Char) : hasP subjAt true (efmL s) = false := by
  unfold efmL footStageL replyStageL
  apply hasP_collapse_stage subjAt_mono subjAt_ws subjAt_dec
  apply hasP_applyCuts_pres subjAt_mono footerCuts
  rw [show replyCuts = [onWroteAt, fromAt, sentAt, toAt] ++ subjAt ::
    [origAt, fwdAt, gtWroteAt] from rfl]
  exact hasP_applyCuts_est subjAt_mono subjAt_nil _ _ _

lemma efmL_no_gtWrote (s : List Char) : hasP gtWroteAt true (efmL s) = false := by
  unfold efmL footStageL replyStageL
  apply hasP_collapse_stage gtWroteAt_mono gtWroteAt_ws gtWroteAt_dec
  apply hasP_applyCuts_pres gtWroteAt_mono footerCuts
  rw [show replyCuts = [onWroteAt, fromAt, sentAt, toAt, subjAt, origAt, fwdAt] ++
    gtWroteAt :: [] from rfl]
  exact hasP_applyCuts_est gtWroteAt_mono gtWroteAt_nil _ _ _

lemma efmL_no_thanks (s : List Char) : hasP thanksAt true (efmL s) = false := by
  unfold efmL
  exact hasP_collapse_stage thanksAt_mono thanksAt_ws thanksAt_dec (footStage_no_thanks s)

lemma efmL_no_warmReg (s : List Char) : hasP warmRegAt true (efmL s) = false := by
  unfold efmL
  exact hasP_collapse_stage warmRegAt_mono warmRegAt_ws warmRegAt_dec (footStage_no_warmReg s)

lemma efmL_no_regards (s : List Char) : hasP regardsAt true (efmL s) = false := by
  unfold efmL
  exact hasP_collapse_stage regardsAt_mono regardsAt_ws regardsAt_dec (footStage_no_regards s)

lemma efmL_no_teamAstro (s : List Char) : hasP teamAstroAt true (efmL s) = false := by
  unfold efmL
  exact hasP_collapse_stage teamAstroAt_mono teamAstroAt_ws teamAstroAt_dec
    (footStage_no_teamAstro s)

lemma efmL_no_astroArun (s : List Char) : hasP astroArunAt true (efmL s) = false := by
  unfold efmL
  exact hasP_collapse_stage astroArunAt_mono astroArunAt_ws astroArunAt_dec
    (footStage_no_astroArun s)

lemma efmL_no_custSup (s : List Char) : hasP custSupAt true (efmL s) = false := by
  unfold efmL
  exact hasP_collapse_stage custSupAt_mono custSupAt_ws custSupAt_dec
    (footStage_no_custSup s)

/-- Claim C6: the tagged message with a `Regards` footer normalizes to
exactly `"Hello issue not resolved"`, and re-running the normalization on
that output returns it unchanged. -/
theorem normalization_example :
    extract_fresh_message "Hello<br>issue not resolved<br>Regards,<br>John"
      = "Hello issue not resolved" ∧
    extract_fresh_message "Hello issue not resolved" = "Hello issue not resolved" :=
  ⟨by decide, by decide⟩

/-- Claim C7 (counterexample): the final whitespace collapse can recreate a
reply-header cut marker.  On this input the literal
`-----Original Message-----` is split across a newline, so no reply pattern
matches, and collapsing the newline to a space makes the output contain a
verbatim (case-insensitive) match of the `-----Original Message-----`
boundary pattern — contradicting the claim that the output never matches
any reply-header pattern. -/
theorem header_reappearance_counterexample :
    extract_fresh_message "hi -----Original\nMessage----- end"
      = "hi -----Original Message----- end" ∧
    hasP origAt true ("hi -----Original Message----- end").data = true :=
  ⟨by decide, by decide⟩

/-- Claim C7 (amended): for every input, the output of
`extract_fresh_message` contains no HTML-tag match, no match of the six
whitespace-flexible reply-header patterns (`On…wrote:`, `From:`, `Sent:`,
`To:`, `Subject:`, `>wrote:`), and no match of the six footer patterns.
(The two fixed literal headers containing a space, `-----Original
Message-----` and `---- Forwarded message ----`, are excluded: whitespace
collapsing can recreate them, as the counterexample shows.) -/
theorem normalization_invariant_amended :
    ∀ s : String,
      hasP tagAt true (extract_fresh_message s).data = false ∧
      (∀ P ∈ ([onWroteAt, fromAt, sentAt, toAt, subjAt, gtWroteAt] :
          List (Bool → List Char → Bool)),
        hasP P true (extract_fresh_message s).data = false) ∧
      (∀ P ∈ ([thanksAt, warmRegAt, regardsAt, teamAstroAt, astroArunAt, custSupAt] :
          List (Bool → List Char → Bool)),
        hasP P true (extract_fresh_message s).data = false) := by
  intro s
  by_cases hs : s = ""
  · subst hs
    refine ⟨by decide, ?_, ?_⟩
    · intro P hP
      simp only [List.mem_cons, List.not_mem_nil, or_false] at hP
      rcases hP with rfl | rfl | rfl | rfl | rfl | rfl <;> decide
    · intro P hP
      simp only [List.mem_cons, List.not_mem_nil, or_false] at hP
      rcases hP with rfl | rfl | rfl | rfl | rfl | rfl <;> decide
  · have he : (extract_fresh_message s).data = efmL s.data := by
      simp [extract_fresh_message, hs]
    rw [he]
    refine ⟨efmL_no_tag _, ?_, ?_⟩
    · intro P hP
      simp only [List.mem_cons, List.not_mem_nil, or_false] at hP
      rcases hP with rfl | rfl | rfl | rfl | rfl | rfl
      · exact efmL_no_onWrote _
      · exact efmL_no_from _
      · exact efmL_no_sent _
      · exact efmL_no_to _
      · exact efmL_no_subj _
      · exact efmL_no_gtWrote _
    · intro P hP
      simp only [List.mem_cons, List.not_mem_nil, or_false] at hP
      rcases hP with rfl | rfl | rfl | rfl | rfl | rfl
      · exact efmL_no_thanks _
      · exact efmL_no_warmReg _
      · exact efmL_no_regards _
      · exact efmL_no_teamAstro _
      · exact efmL_no_astroArun _
      · exact efmL_no_custSup _

/-- Claim C10: the footer stage keeps only a prefix of the text it receives,
a prefix in which no footer pattern (`thanks`, `warm regards`, `regards`,
`team astro`, `astro arun pandit`, `customer support`) matches anywhere —
so the text is cut before the first footer occurrence even when the phrase
appears mid-sentence; in particular a message beginning with `Thanks`
normalizes to the empty string. -/
theorem footer_truncation :
    (∀ s : String, ∃ r, footStageL s.data ++ r = replyStageL s.data) ∧
    (∀ s : String,
      ∀ P ∈ ([thanksAt, warmRegAt, regardsAt, teamAstroAt, astroArunAt, custSupAt] :
          List (Bool → List Char → Bool)),
        hasP P true (footStageL s.data) = false) ∧
    extract_fresh_message "Thanks to your delay I missed my class" = "" := by
  refine ⟨?_, ?_, by decide⟩
  · intro s
    exact applyCuts_pre footerCuts (replyStageL s.data)
  · intro s P hP
    simp only [List.mem_cons, List.not_mem_nil, or_false] at hP
    rcases hP with rfl | rfl | rfl | rfl | rfl | rfl
    · exact footStage_no_thanks _
    · exact footStage_no_warmReg _
    · exact footStage_no_regards _
    · exact footStage_no_teamAstro _
    · exact footStage_no_astroArun _
    · exact footStage_no_custSup _

/-- Claim C7 witness: the invariant applied at a concrete input and
pattern — no `thanks` footer match survives in the normalized output. -/
theorem normalization_invariant_witness :
    hasP thanksAt true (extract_fresh_message "Good<br>morning thanks a lot").data = false :=
  (normalization_invariant_amended "Good<br>morning thanks a lot").2.2 thanksAt
    (by simp)

/-- Claim C10 witness: the footer-stage guarantee applied at a concrete
input and pattern. -/
theorem footer_truncation_witness :
    hasP thanksAt true (footStageL ("Thanks to your delay I missed my class").data) = false :=
  footer_truncation.2.1 "Thanks to your delay I missed my class" thanksAt (by simp)
